import Mathlib

/-!
Verification of the myblockchain repository (src/src/blockchain.js) against its
natural-language specification.

The JavaScript source is shallowly embedded as follows.

- The SHA-256 digest used by both hash methods is an external capability; the
  embedding is parameterised over an abstract digest function
  H : String -> String applied to exactly the concatenated string the source
  builds.  Signature verification (elliptic's publicKey.verify) is likewise an
  abstract V : String -> String -> String -> Bool taking the public key, the
  message digest and the signature.  Signing is an abstract
  String -> String function together with the public key of the signer.
- JavaScript numbers appearing in the code are integer-valued throughout
  (amounts, timestamps, nonces); amounts are modelled as Int, times and nonces
  as Nat, and their coercion to strings as the decimal rendering functions
  natDec / intDec defined below.
- A missing property (undefined) or null is modelled as Option.none:
  Transaction.fromAddress and Transaction.toAddress can be null,
  Transaction.signature is undefined until signTransaction sets it.
- The genesis block stores the plain string "Genesis block" in its
  transactions field while mined blocks store an array, and the genesis
  timestamp is the string "01/01/2022" while mined block timestamps are
  numbers; the sum types TxPayload and JsPrim record this.
- Thrown JavaScript errors are modelled with Except String; a thrown error
  carries the message of the Error object (or a TypeError marker for calling a
  method that does not exist).  JavaScript mutation is modelled by returning
  the updated object; the source never mutates state before a throw, so this
  is observationally faithful.
- mineBlock's unbounded proof-of-work loop is modelled with explicit fuel and
  returns none when the fuel runs out (partial correctness: every claim about
  mineBlock is conditional on the call returning).
- JSON.stringify is modelled field-for-field in source insertion order
  (escaping of special characters inside strings is not modelled; no claim
  depends on it).  JavaScript substring(0, d) is modelled over the character
  list of the string.
-/

deriving instance DecidableEq for Except

namespace MyBlockchain

/-! ## Decimal rendering of JavaScript numbers -/

/-- Little helper: the decimal digits of a natural number, most significant
first, with explicit fuel (the fuel n + 1 always suffices). -/
def natDecAux : Nat → Nat → List Char
  | 0, _ => []
  | f + 1, n =>
    if n < 10 then [Nat.digitChar n]
    else natDecAux f (n / 10) ++ [Nat.digitChar (n % 10)]

/-- Decimal rendering of a natural number, as JavaScript string coercion
produces it for integer-valued numbers. -/
def natDec (n : Nat) : String := String.mk (natDecAux (n + 1) n)

/-- Decimal rendering of an integer, as JavaScript string coercion produces it
for integer-valued numbers. -/
def intDec : Int → String
  | Int.ofNat n => natDec n
  | Int.negSucc n => "-" ++ natDec (n + 1)

def digitVal (c : Char) : Nat := c.toNat - 48

def digitsVal (l : List Char) : Nat := l.foldl (fun a c => a * 10 + digitVal c) 0

theorem digitsVal_append_one (l : List Char) (c : Char) :
    digitsVal (l ++ [c]) = digitsVal l * 10 + digitVal c := by
  unfold digitsVal
  rw [List.foldl_append]
  rfl

theorem digitVal_digitChar (d : Nat) (h : d < 10) : digitVal (Nat.digitChar d) = d := by
  interval_cases d <;> rfl

theorem natDecAux_val (f : Nat) : ∀ n, n < f → digitsVal (natDecAux f n) = n := by
  induction f with
  | zero => exact fun n h => absurd h (Nat.not_lt_zero n)
  | succ f ih =>
    intro n h
    unfold natDecAux
    by_cases h10 : n < 10
    · rw [if_pos h10]
      show 0 * 10 + digitVal (Nat.digitChar n) = n
      rw [digitVal_digitChar n h10]
      omega
    · rw [if_neg h10]
      have hn : 0 < n := by omega
      have hdiv : n / 10 < f := Nat.lt_of_lt_of_le (Nat.div_lt_self hn (by omega)) (by omega)
      rw [digitsVal_append_one, ih (n / 10) hdiv,
        digitVal_digitChar (n % 10) (Nat.mod_lt n (by omega))]
      omega

theorem natDec_injective : Function.Injective natDec := by
  intro m n h
  have hd : natDecAux (m + 1) m = natDecAux (n + 1) n := congrArg String.data h
  have hv := congrArg digitsVal hd
  rwa [natDecAux_val _ m (Nat.lt_succ_self m), natDecAux_val _ n (Nat.lt_succ_self n)] at hv

theorem natDecAux_head (f : Nat) :
    ∀ n, 0 < f → ∃ d l, natDecAux f n = Nat.digitChar d :: l ∧ d < 10 := by
  induction f with
  | zero => exact fun n h => absurd h (Nat.lt_irrefl 0)
  | succ f ih =>
    intro n _
    unfold natDecAux
    by_cases h10 : n < 10
    · exact ⟨n, [], by rw [if_pos h10], h10⟩
    · rw [if_neg h10]
      cases f with
      | zero =>
        exact ⟨n % 10, [], by simp [natDecAux], Nat.mod_lt n (by omega)⟩
      | succ f' =>
        obtain ⟨d, l, hl, hd⟩ := ih (n / 10) (Nat.succ_pos f')
        exact ⟨d, l ++ [Nat.digitChar (n % 10)], by rw [hl]; rfl, hd⟩

theorem natDec_ne_dash (m : Nat) (s : String) : natDec m ≠ "-" ++ s := by
  intro h
  obtain ⟨d, l, hl, hd⟩ := natDecAux_head (m + 1) m (Nat.succ_pos m)
  have hdata : (natDec m).data = ("-" ++ s).data := congrArg String.data h
  rw [String.data_append] at hdata
  have hdata2 : Nat.digitChar d :: l = '-' :: s.data := by
    rw [← hl]
    exact hdata
  have hc : Nat.digitChar d = '-' := (List.cons.inj hdata2).1
  interval_cases d <;> exact absurd hc (by decide)

/-! ## String facts used throughout -/

theorem str_data_inj {a b : String} (h : a.data = b.data) : a = b := by
  cases a
  cases b
  exact congrArg String.mk h

theorem str_left_cancel {a b c : String} (h : a ++ b = a ++ c) : b = c := by
  apply str_data_inj
  have hd := congrArg String.data h
  rw [String.data_append, String.data_append] at hd
  exact List.append_cancel_left hd

theorem str_right_cancel {a b c : String} (h : a ++ c = b ++ c) : a = b := by
  apply str_data_inj
  have hd := congrArg String.data h
  rw [String.data_append, String.data_append] at hd
  exact List.append_cancel_right hd

theorem append_mid_ne (x d : String) {c c' : String} (h : c ≠ c') :
    x ++ c ++ d ≠ x ++ c' ++ d :=
  fun he => h (str_left_cancel (str_right_cancel he))

theorem intDec_injective : Function.Injective intDec := by
  intro i j h
  match i, j with
  | Int.ofNat m, Int.ofNat n => exact congrArg Int.ofNat (natDec_injective h)
  | Int.ofNat m, Int.negSucc n => exact absurd h (natDec_ne_dash m _)
  | Int.negSucc m, Int.ofNat n => exact absurd h.symm (natDec_ne_dash n _)
  | Int.negSucc m, Int.negSucc n =>
    have h1 : natDec (m + 1) = natDec (n + 1) := str_left_cancel h
    have h2 : m + 1 = n + 1 := natDec_injective h1
    exact congrArg Int.negSucc (Nat.succ.inj h2)

/-! ## Data model (from src/src/blockchain.js) -/

/-- A transaction as the Transaction class constructor builds it: fromAddress,
toAddress and amount are stored as given (either address may be null, modelled
as none), the timestamp is captured at construction, and the signature
property does not exist (none) until signTransaction assigns it. -/
structure Transaction where
  fromAddress : Option String
  toAddress : Option String
  amount : Int
  timestamp : Nat
  signature : Option String
deriving DecidableEq

/-- A JavaScript primitive that is either a string or an integer-valued
number: the Block timestamp is the string "01/01/2022" for the genesis block
and a numeric Date.now() for mined blocks. -/
inductive JsPrim where
  | jstr (s : String)
  | jnum (n : Nat)
deriving DecidableEq

/-- The transactions field of a Block: the genesis block stores the plain
string "Genesis block" while mined blocks store an array of transactions. -/
inductive TxPayload where
  | str (s : String)
  | txs (l : List Transaction)
deriving DecidableEq

/-- A block, fields in the order the Block constructor assigns them:
previousHash, timestamp, transactions, nonce, hash. -/
structure Block where
  previousHash : String
  timestamp : JsPrim
  transactions : TxPayload
  nonce : Nat
  hash : String
deriving DecidableEq

/-- The Blockchain state: the chain (seeded with the genesis block), the
proof-of-work difficulty, the pending transaction pool, and the mining
reward. -/
structure Blockchain where
  chain : List Block
  difficulty : Nat
  pendingTransactions : List Transaction
  miningReward : Int
deriving DecidableEq

/-! ## Serialization -/

/-- JavaScript string coercion of a possibly-null string: null + "" is
"null". -/
def optStr : Option String → String
  | none => "null"
  | some s => s

/-- JSON string literal (escaping of special characters not modelled). -/
def jsonQ (s : String) : String := "\"" ++ s ++ "\""

/-- JSON rendering of a possibly-null string property value. -/
def jsonOpt : Option String → String
  | none => "null"
  | some s => jsonQ s

/-- JavaScript string coercion of a string-or-number primitive. -/
def primStr : JsPrim → String
  | JsPrim.jstr s => s
  | JsPrim.jnum n => natDec n

/-- JSON rendering of a string-or-number primitive. -/
def primJson : JsPrim → String
  | JsPrim.jstr s => jsonQ s
  | JsPrim.jnum n => natDec n

/-- Array.prototype elements joined by commas, as JSON.stringify renders the
members of an array. -/
def joinComma : List String → String
  | [] => ""
  | [s] => s
  | s :: rest => s ++ "," ++ joinComma rest

/-- JSON.stringify of a Transaction object: keys in insertion order
(fromAddress, toAddress, amount, timestamp, then signature only once
signTransaction has set it -- JSON.stringify omits undefined properties). -/
def stringifyTx (t : Transaction) : String :=
  "\x7b\"fromAddress\":" ++ jsonOpt t.fromAddress ++
  ",\"toAddress\":" ++ jsonOpt t.toAddress ++
  ",\"amount\":" ++ intDec t.amount ++
  ",\"timestamp\":" ++ natDec t.timestamp ++
  (match t.signature with
   | none => ""
   | some s => ",\"signature\":" ++ jsonQ s) ++ "\x7d"

/-- JSON.stringify of the transactions field: a quoted string for the genesis
payload, a JSON array for a mined block's transaction list. -/
def stringifyPayload : TxPayload → String
  | TxPayload.str s => jsonQ s
  | TxPayload.txs l => "[" ++ joinComma (l.map stringifyTx) ++ "]"

/-- JSON.stringify of a Block object, keys in constructor insertion order. -/
def stringifyBlock (b : Block) : String :=
  "\x7b\"previousHash\":" ++ jsonQ b.previousHash ++
  ",\"timestamp\":" ++ primJson b.timestamp ++
  ",\"transactions\":" ++ stringifyPayload b.transactions ++
  ",\"nonce\":" ++ natDec b.nonce ++
  ",\"hash\":" ++ jsonQ b.hash ++ "\x7d"

/-- JavaScript substring(0, n) over the character sequence. -/
def jsSubstring (s : String) (n : Nat) : String := String.mk (s.data.take n)

/-- Array(d + 1).join of a zero character: the string of d zeros mineBlock
compares the hash prefix against. -/
def zeroStr (d : Nat) : String := String.mk (List.replicate d '0')

/-! ## Transaction methods -/

/-- Transaction.calculateHash: the digest of fromAddress + toAddress + amount
+ timestamp concatenated by JavaScript string coercion. -/
def Transaction.calculateHash (H : String → String) (t : Transaction) : String :=
  H (optStr t.fromAddress ++ optStr t.toAddress ++ intDec t.amount ++ natDec t.timestamp)

/-- Transaction.signTransaction: throws unless the signing key's public key
equals fromAddress; otherwise signs calculateHash() and stores the signature.
The signing identity is its public key pub plus its abstract signing function
sgn. -/
def Transaction.signTransaction (H : String → String) (pub : String) (sgn : String → String)
    (t : Transaction) : Except String Transaction :=
  if some pub ≠ t.fromAddress then
    Except.error "You cannot sign transactions for other wallets!"
  else
    Except.ok { t with signature := some (sgn (Transaction.calculateHash H t)) }

/-- Transaction.isValid: a null fromAddress is a mining reward and counts as
valid; a missing or empty signature throws; otherwise the abstract verifier V
checks the stored signature against calculateHash() with fromAddress as the
public key. -/
def Transaction.isValid (H : String → String) (V : String → String → String → Bool)
    (t : Transaction) : Except String Bool :=
  match t.fromAddress with
  | none => Except.ok true
  | some pk =>
    match t.signature with
    | none => Except.error "No signature in this transaction"
    | some s =>
      if s = "" then Except.error "No signature in this transaction"
      else Except.ok (V pk (Transaction.calculateHash H t) s)

/-! ## Block methods -/

/-- Block.calculateHash: the digest of previousHash + timestamp +
JSON.stringify(transactions) + nonce (the hash field itself is not an
input). -/
def Block.calculateHash (H : String → String) (b : Block) : String :=
  H (b.previousHash ++ primStr b.timestamp ++ stringifyPayload b.transactions ++ natDec b.nonce)

/-- The Block constructor: stores the fields, sets nonce to 0, then computes
the hash from the stored fields. -/
def Block.create (H : String → String) (timestamp : JsPrim) (transactions : TxPayload)
    (previousHash : String) : Block :=
  let b : Block :=
    { previousHash := previousHash, timestamp := timestamp, transactions := transactions,
      nonce := 0, hash := "" }
  { b with hash := Block.calculateHash H b }

/-- Block.mineBlock: while the first difficulty characters of the hash are not
all zeros, increment the nonce and recompute the hash.  The unbounded loop is
given explicit fuel; none means the fuel ran out before the loop exited. -/
def Block.mineBlock (H : String → String) (difficulty : Nat) : Nat → Block → Option Block
  | fuel, b =>
    if jsSubstring b.hash difficulty = zeroStr difficulty then some b
    else
      match fuel with
      | 0 => none
      | f + 1 =>
        let b1 : Block := { b with nonce := b.nonce + 1 }
        Block.mineBlock H difficulty f { b1 with hash := Block.calculateHash H b1 }

/-- The for-of loop of Block.hasValidTransactions over an array: propagates a
throw from isValid, returns false on the first invalid transaction, true when
every transaction is valid. -/
def allValid (H : String → String) (V : String → String → String → Bool) :
    List Transaction → Except String Bool
  | [] => Except.ok true
  | t :: ts =>
    match Transaction.isValid H V t with
    | Except.error e => Except.error e
    | Except.ok false => Except.ok false
    | Except.ok true => allValid H V ts

/-- Block.hasValidTransactions.  On the genesis payload (a plain string) the
for-of loop iterates characters and calling isValid on a character throws a
TypeError (an empty string iterates zero times and returns true). -/
def Block.hasValidTransactions (H : String → String) (V : String → String → String → Bool)
    (b : Block) : Except String Bool :=
  match b.transactions with
  | TxPayload.str s =>
    if s = "" then Except.ok true
    else Except.error "TypeError: tx.isValid is not a function"
  | TxPayload.txs l => allValid H V l

/-! ## Blockchain methods -/

/-- Blockchain.createGenesisBlock: new Block('01/01/2022', 'Genesis block', '0'). -/
def Blockchain.createGenesisBlock (H : String → String) : Block :=
  Block.create H (JsPrim.jstr "01/01/2022") (TxPayload.str "Genesis block") "0"

/-- The Blockchain constructor: chain seeded with the genesis block,
difficulty 2, empty pending pool, mining reward 100. -/
def newBlockchain (H : String → String) : Blockchain :=
  { chain := [Blockchain.createGenesisBlock H], difficulty := 2,
    pendingTransactions := [], miningReward := 100 }

/-- A reward transaction as minePendingTransactions constructs it:
new Transaction(null, miningRewardAddress, miningReward), stamped with the
current time, unsigned. -/
def rewardTxn (addr : String) (amt : Int) (tNow : Nat) : Transaction :=
  { fromAddress := none, toAddress := some addr, amount := amt,
    timestamp := tNow, signature := none }

/-- Blockchain.minePendingTransactions: push a reward transaction onto the
pending pool, build a block from the whole pool with previousHash the latest
block's hash, mine it at the chain's difficulty, append it, and clear the
pool.  tNow is the Date.now() of the reward transaction, bNow the Date.now()
of the block; fuel bounds the mining loop (none: fuel ran out, or the chain
was empty so getLatestBlock().hash would have thrown). -/
def Blockchain.minePendingTransactions (H : String → String) (fuel tNow bNow : Nat)
    (addr : String) (bc : Blockchain) : Option Blockchain :=
  match bc.chain.getLast? with
  | none => none
  | some latest =>
    let pending := bc.pendingTransactions ++ [rewardTxn addr bc.miningReward tNow]
    match Block.mineBlock H bc.difficulty fuel
        (Block.create H (JsPrim.jnum bNow) (TxPayload.txs pending) latest.hash) with
    | none => none
    | some mined =>
      some { bc with chain := bc.chain ++ [mined], pendingTransactions := [] }

/-- Blockchain.getBalanceOfAddress: replay every transaction of every block,
debiting amounts sent from the address and crediting amounts sent to it.  On
the genesis payload (a plain string) the inner for-of loop iterates
characters, whose fromAddress/toAddress properties are undefined and never
strictly equal a string address, so the balance is unchanged. -/
def Blockchain.getBalanceOfAddress (bc : Blockchain) (address : String) : Int :=
  bc.chain.foldl
    (fun bal b =>
      match b.transactions with
      | TxPayload.str _ => bal
      | TxPayload.txs l =>
        l.foldl
          (fun bal2 t =>
            let bal3 := if t.fromAddress = some address then bal2 - t.amount else bal2
            if t.toAddress = some address then bal3 + t.amount else bal3)
          bal)
    0

/-- JavaScript truthiness of an address property: null/undefined and the
empty string are falsy. -/
def optFalsy : Option String → Bool
  | none => true
  | some s => s == ""

/-- Blockchain.addTransaction: four checks in source order, each throwing its
own error; only when all pass is the transaction pushed onto the pending
pool.  A throw from isValid (missing signature) propagates as-is. -/
def Blockchain.addTransaction (H : String → String) (V : String → String → String → Bool)
    (bc : Blockchain) (t : Transaction) : Except String Blockchain :=
  if optFalsy t.fromAddress || optFalsy t.toAddress then
    Except.error "Transaction must include from and to address"
  else
    match Transaction.isValid H V t with
    | Except.error e => Except.error e
    | Except.ok false => Except.error "Cannot add invalid transaction to chain"
    | Except.ok true =>
      if t.amount ≤ 0 then Except.error "Transaction amount should be higher than 0"
      else if Blockchain.getBalanceOfAddress bc (t.fromAddress.getD "") < t.amount then
        Except.error "Not enough balance"
      else Except.ok { bc with pendingTransactions := bc.pendingTransactions ++ [t] }

/-- The loop of Blockchain.isChainValid from index 1 on: for each block, a
broken previousHash link returns false, a throw from hasValidTransactions
propagates, an invalid transaction set returns false, and a stored hash that
differs from the recomputed hash returns false. -/
def validFrom (H : String → String) (V : String → String → String → Bool) :
    Block → List Block → Except String Bool
  | _, [] => Except.ok true
  | prev, cur :: rest =>
    if cur.previousHash ≠ prev.hash then Except.ok false
    else
      match Block.hasValidTransactions H V cur with
      | Except.error e => Except.error e
      | Except.ok false => Except.ok false
      | Except.ok true =>
        if cur.hash ≠ Block.calculateHash H cur then Except.ok false
        else validFrom H V cur rest

/-- Blockchain.isChainValid: compare JSON.stringify of a freshly recomputed
genesis block with JSON.stringify of chain[0] (on an empty chain chain[0] is
undefined and the comparison fails, returning false), then run the loop over
the remaining blocks. -/
def Blockchain.isChainValid (H : String → String) (V : String → String → String → Bool)
    (bc : Blockchain) : Except String Bool :=
  match bc.chain with
  | [] => Except.ok false
  | g :: rest =>
    if stringifyBlock (Blockchain.createGenesisBlock H) ≠ stringifyBlock g then Except.ok false
    else validFrom H V g rest

/-! ## Characterizing the chain-validity loop -/

/-- The three per-block checks of the isChainValid loop, stated of a block and
its predecessor. -/
def blockCheck (H : String → String) (V : String → String → String → Bool)
    (prev cur : Block) : Prop :=
  cur.previousHash = prev.hash ∧
  Block.hasValidTransactions H V cur = Except.ok true ∧
  cur.hash = Block.calculateHash H cur

/-- All blocks of the list pass the per-block checks, each against its
predecessor (the first against prev). -/
def blocksOk (H : String → String) (V : String → String → String → Bool) :
    Block → List Block → Prop
  | _, [] => True
  | prev, cur :: rest => blockCheck H V prev cur ∧ blocksOk H V cur rest

theorem validFrom_ok_iff (H : String → String) (V : String → String → String → Bool) :
    ∀ (l : List Block) (prev : Block),
      validFrom H V prev l = Except.ok true ↔ blocksOk H V prev l := by
  intro l
  induction l with
  | nil => intro prev; simp [validFrom, blocksOk]
  | cons cur rest ih =>
    intro prev
    unfold validFrom blocksOk blockCheck
    by_cases hlink : cur.previousHash = prev.hash
    · rw [if_neg (by simpa using hlink)]
      cases htx : Block.hasValidTransactions H V cur with
      | error e => simp [htx]
      | ok b =>
        cases b with
        | false => simp
        | true =>
          by_cases hh : cur.hash = Block.calculateHash H cur
          · rw [if_neg (by simpa using hh)]
            simp [ih cur, hlink, hh]
          · rw [if_pos (by simpa using hh)]
            simp [hlink, hh]
    · rw [if_pos (by simpa using hlink)]
      simp [hlink]

theorem blocksOk_iff_pairs (H : String → String) (V : String → String → String → Bool) :
    ∀ (l : List Block) (p : Block),
      blocksOk H V p l ↔
        ∀ i prev cur, (p :: l)[i]? = some prev → (p :: l)[i + 1]? = some cur →
          blockCheck H V prev cur := by
  intro l
  induction l with
  | nil =>
    intro p
    constructor
    · intro _ i prev cur _ hcur
      rw [List.getElem?_cons_succ] at hcur
      simp at hcur
    · intro _
      trivial
  | cons cur rest ih =>
    intro p
    constructor
    · intro h i prev c hprev hc
      cases i with
      | zero =>
        rw [List.getElem?_cons_zero] at hprev
        rw [List.getElem?_cons_succ, List.getElem?_cons_zero] at hc
        cases hprev
        cases hc
        exact h.1
      | succ j =>
        rw [List.getElem?_cons_succ] at hprev
        rw [List.getElem?_cons_succ] at hc
        exact (ih cur).mp h.2 j prev c hprev hc
    · intro h
      refine ⟨h 0 p cur rfl (by simp), (ih cur).mpr ?_⟩
      intro i prev c hprev hc
      exact h (i + 1) prev c (by rw [List.getElem?_cons_succ]; exact hprev)
        (by rw [List.getElem?_cons_succ]; exact hc)

/-- The spec-side statement of claim C1, in the words of the specification:
the serialized content of chain[0] equals the serialization of a freshly
recomputed genesis block, and every block from index 1 on passes the link
check, the transaction check and the hash check against its predecessor. -/
def specChainValid (H : String → String) (V : String → String → String → Bool)
    (bc : Blockchain) : Prop :=
  (∃ g, bc.chain[0]? = some g ∧
    stringifyBlock g = stringifyBlock (Blockchain.createGenesisBlock H)) ∧
  ∀ i prev cur, bc.chain[i]? = some prev → bc.chain[i + 1]? = some cur →
    blockCheck H V prev cur

theorem isValid_error_msg (H : String → String) (V : String → String → String → Bool)
    (t : Transaction) (e : String) (h : Transaction.isValid H V t = Except.error e) :
    e = "No signature in this transaction" := by
  cases hf : t.fromAddress with
  | none => simp [Transaction.isValid, hf] at h
  | some pk =>
    cases hs : t.signature with
    | none =>
      simp only [Transaction.isValid, hf, hs] at h
      exact (Except.error.inj h).symm
    | some s =>
      by_cases he : s = ""
      · simp only [Transaction.isValid, hf, hs, if_pos he] at h
        exact (Except.error.inj h).symm
      · simp only [Transaction.isValid, hf, hs, if_neg he] at h
        exact absurd h (by simp)

theorem allValid_error_msg (H : String → String) (V : String → String → String → Bool) :
    ∀ (l : List Transaction) (e : String), allValid H V l = Except.error e →
      e = "No signature in this transaction" := by
  intro l
  induction l with
  | nil => intro e h; exact absurd h (by simp [allValid])
  | cons t ts ih =>
    intro e h
    unfold allValid at h
    cases hv : Transaction.isValid H V t with
    | error e' =>
      rw [hv] at h
      exact (Except.error.inj h) ▸ isValid_error_msg H V t e' hv
    | ok b =>
      rw [hv] at h
      cases b with
      | false => exact absurd h (by simp)
      | true => exact ih e h

theorem hasValidTransactions_error_msg (H : String → String)
    (V : String → String → String → Bool) (b : Block) (e : String)
    (h : Block.hasValidTransactions H V b = Except.error e) :
    e = "No signature in this transaction" ∨ e = "TypeError: tx.isValid is not a function" := by
  cases hp : b.transactions with
  | str s =>
    by_cases he : s = ""
    · simp [Block.hasValidTransactions, hp, if_pos he] at h
    · simp only [Block.hasValidTransactions, hp, if_neg he] at h
      exact Or.inr (Except.error.inj h).symm
  | txs l =>
    simp only [Block.hasValidTransactions, hp] at h
    exact Or.inl (allValid_error_msg H V l e h)

theorem validFrom_error_msg (H : String → String) (V : String → String → String → Bool) :
    ∀ (l : List Block) (prev : Block) (e : String), validFrom H V prev l = Except.error e →
      e = "No signature in this transaction" ∨
      e = "TypeError: tx.isValid is not a function" := by
  intro l
  induction l with
  | nil => intro prev e h; exact absurd h (by simp [validFrom])
  | cons cur rest ih =>
    intro prev e h
    unfold validFrom at h
    by_cases hlink : cur.previousHash ≠ prev.hash
    · rw [if_pos hlink] at h; exact absurd h (by simp)
    · rw [if_neg hlink] at h
      cases htx : Block.hasValidTransactions H V cur with
      | error e' =>
        rw [htx] at h
        exact (Except.error.inj h) ▸ hasValidTransactions_error_msg H V cur e' htx
      | ok b =>
        rw [htx] at h
        cases b with
        | false => exact absurd h (by simp)
        | true =>
          by_cases hh : cur.hash ≠ Block.calculateHash H cur
          · rw [if_pos hh] at h; exact absurd h (by simp)
          · rw [if_neg hh] at h
            exact ih cur e h

/-! ## Claim C1 -/

/-- Claim C1 (amended): isChainValid() returns true if and only if the
serialized content of chain[0] equals the serialization of a freshly
recomputed deterministic genesis block and every block at index i >= 1
passes the link check, the transaction check and the recomputed-hash check;
otherwise it returns false at the first failing block or raises an error, and
any raised error is the missing-signature validation error propagated from
Transaction.isValid (or the type error produced by iterating a non-array
transactions payload).  The claim's "never raises an error" is refuted by
isChainValid_raises_cex. -/
theorem isChainValid_characterization (H : String → String)
    (V : String → String → String → Bool) (bc : Blockchain) :
    (Blockchain.isChainValid H V bc = Except.ok true ↔ specChainValid H V bc) ∧
    (∀ e, Blockchain.isChainValid H V bc = Except.error e →
      e = "No signature in this transaction" ∨
      e = "TypeError: tx.isValid is not a function") := by
  cases hc : bc.chain with
  | nil =>
    constructor
    · constructor
      · intro h
        simp only [Blockchain.isChainValid, hc] at h
        exact absurd h (by simp)
      · intro h
        obtain ⟨g, hg, _⟩ := h.1
        rw [hc] at hg
        simp at hg
    · intro e h
      simp only [Blockchain.isChainValid, hc] at h
      exact absurd h (by simp)
  | cons g rest =>
    by_cases hg : stringifyBlock (Blockchain.createGenesisBlock H) = stringifyBlock g
    · have hiv : Blockchain.isChainValid H V bc = validFrom H V g rest := by
        simp only [Blockchain.isChainValid, hc, if_neg (not_not.mpr hg)]
      constructor
      · rw [hiv, validFrom_ok_iff, blocksOk_iff_pairs]
        simp only [specChainValid, hc]
        constructor
        · intro hp
          exact ⟨⟨g, by simp, hg.symm⟩, hp⟩
        · exact fun h => h.2
      · intro e he
        rw [hiv] at he
        exact validFrom_error_msg H V rest g e he
    · have hiv : Blockchain.isChainValid H V bc = Except.ok false := by
        simp only [Blockchain.isChainValid, hc, if_pos hg]
      constructor
      · constructor
        · intro h
          rw [hiv] at h
          exact absurd h (by simp)
        · intro h
          obtain ⟨g', hg', hs⟩ := h.1
          rw [hc] at hg'
          rw [List.getElem?_cons_zero] at hg'
          cases hg'
          exact absurd hs.symm hg
      · intro e he
        rw [hiv] at he
        exact absurd he (by simp)

/-- A verifier that accepts everything; only concrete scenarios use it. -/
def cexV : String → String → String → Bool := fun _ _ _ => true

/-- A constant digest function for the C1 counterexample. -/
def cexH : String → String := fun _ => "h"

/-- A transaction with a sender but no signature, as tampering can produce
inside an already-mined block. -/
def cexBadTx : Transaction :=
  { fromAddress := some "A", toAddress := some "B", amount := 1, timestamp := 0,
    signature := none }

def cexBadBlock : Block :=
  Block.create cexH (JsPrim.jnum 1) (TxPayload.txs [cexBadTx]) "h"

def cexBadChain : Blockchain :=
  { chain := [Blockchain.createGenesisBlock cexH, cexBadBlock], difficulty := 2,
    pendingTransactions := [], miningReward := 100 }

/-- Counterexample to claim C1 as stated: on a chain whose second block holds
a transaction with a present fromAddress and no signature, isChainValid
raises the missing-signature error instead of returning a boolean, so "never
raises an error" is false. -/
theorem isChainValid_raises_cex :
    Blockchain.isChainValid cexH cexV cexBadChain =
      Except.error "No signature in this transaction" := by decide

/-! ## Claim C3 -/

theorem mineBlock_sound (H : String → String) (d : Nat) :
    ∀ (fuel : Nat) (b b' : Block), Block.mineBlock H d fuel b = some b' →
      jsSubstring b'.hash d = zeroStr d ∧
      b'.previousHash = b.previousHash ∧ b'.timestamp = b.timestamp ∧
      b'.transactions = b.transactions ∧
      (b.hash = Block.calculateHash H b → b'.hash = Block.calculateHash H b') := by
  intro fuel
  induction fuel with
  | zero =>
    intro b b' h
    unfold Block.mineBlock at h
    by_cases hcond : jsSubstring b.hash d = zeroStr d
    · rw [if_pos hcond] at h
      cases h
      exact ⟨hcond, rfl, rfl, rfl, fun hh => hh⟩
    · rw [if_neg hcond] at h
      exact absurd h (by simp)
  | succ f ih =>
    intro b b' h
    unfold Block.mineBlock at h
    by_cases hcond : jsSubstring b.hash d = zeroStr d
    · rw [if_pos hcond] at h
      cases h
      exact ⟨hcond, rfl, rfl, rfl, fun hh => hh⟩
    · rw [if_neg hcond] at h
      obtain ⟨h1, h2, h3, h4, h5⟩ := ih _ b' h
      exact ⟨h1, h2, h3, h4, fun _ => h5 rfl⟩

/-- Claim C3 (amended): whenever mineBlock(d) returns, the first d characters
of the resulting hash are all zeros; and provided the stored hash equalled
calculateHash() when the call began (as it does for every freshly constructed
block), the stored hash equals calculateHash() on return.  The unconditional
second conjunct of the claim is refuted by mineBlock_stale_hash_cex. -/
theorem mineBlock_post_spec (H : String → String) (d fuel : Nat) (b b' : Block)
    (h : Block.mineBlock H d fuel b = some b') :
    jsSubstring b'.hash d = zeroStr d ∧
    (b.hash = Block.calculateHash H b → b'.hash = Block.calculateHash H b') :=
  ⟨(mineBlock_sound H d fuel b b' h).1, (mineBlock_sound H d fuel b b' h).2.2.2.2⟩

/-- A constant digest function never producing a zero prefix. -/
def cexStaleH : String → String := fun _ => "1"

/-- A block whose stored hash was tampered to start with zeros without
recomputing it. -/
def cexStaleBlock : Block :=
  { previousHash := "", timestamp := JsPrim.jnum 0, transactions := TxPayload.str "x",
    nonce := 0, hash := "00" }

/-- Counterexample to claim C3 as stated: on a block whose stored hash
already starts with the required zeros but does not equal calculateHash(),
mineBlock(2) returns at once and the returned block's stored hash still
differs from calculateHash(). -/
theorem mineBlock_stale_hash_cex :
    Block.mineBlock cexStaleH 2 3 cexStaleBlock = some cexStaleBlock ∧
    cexStaleBlock.hash ≠ Block.calculateHash cexStaleH cexStaleBlock := by
  exact ⟨by decide, by decide⟩

/-- A constant digest function whose output already meets difficulty 2;
mining with it terminates immediately, making concrete runs computable. -/
def witH : String → String := fun _ => "00"

def witPowBlock : Block := Block.create witH (JsPrim.jnum 0) (TxPayload.txs []) ""

/-- Witness for mineBlock_post_spec at a concrete freshly built block. -/
theorem mineBlock_post_spec_instance :
    jsSubstring witPowBlock.hash 2 = zeroStr 2 ∧
    witPowBlock.hash = Block.calculateHash witH witPowBlock :=
  ⟨(mineBlock_post_spec witH 2 0 witPowBlock witPowBlock (by decide)).1,
   (mineBlock_post_spec witH 2 0 witPowBlock witPowBlock (by decide)).2 (by decide)⟩

/-! ## Claim C6 -/

theorem create_hash_inv (H : String → String) (ts : JsPrim) (txs : TxPayload) (prev : String) :
    (Block.create H ts txs prev).hash = Block.calculateHash H (Block.create H ts txs prev) := rfl

theorem minePending_characterization (H : String → String) (fuel tNow bNow : Nat)
    (addr : String) (bc bc' : Blockchain)
    (h : Blockchain.minePendingTransactions H fuel tNow bNow addr bc = some bc') :
    ∃ latest mined,
      bc.chain.getLast? = some latest ∧
      bc'.chain = bc.chain ++ [mined] ∧
      bc'.pendingTransactions = [] ∧
      bc'.difficulty = bc.difficulty ∧
      bc'.miningReward = bc.miningReward ∧
      mined.previousHash = latest.hash ∧
      mined.timestamp = JsPrim.jnum bNow ∧
      mined.transactions =
        TxPayload.txs (bc.pendingTransactions ++ [rewardTxn addr bc.miningReward tNow]) ∧
      jsSubstring mined.hash bc.difficulty = zeroStr bc.difficulty ∧
      mined.hash = Block.calculateHash H mined := by
  cases hl : bc.chain.getLast? with
  | none =>
    simp only [Blockchain.minePendingTransactions, hl] at h
    exact absurd h (by simp)
  | some latest =>
    cases hm : Block.mineBlock H bc.difficulty fuel
        (Block.create H (JsPrim.jnum bNow)
          (TxPayload.txs (bc.pendingTransactions ++ [rewardTxn addr bc.miningReward tNow]))
          latest.hash) with
    | none =>
      simp only [Blockchain.minePendingTransactions, hl, hm] at h
      exact absurd h (by simp)
    | some mined =>
      simp only [Blockchain.minePendingTransactions, hl, hm, Option.some.injEq] at h
      obtain ⟨hpow, hprev, hts, htxs, hinv⟩ := mineBlock_sound H bc.difficulty fuel _ mined hm
      subst h
      exact ⟨latest, mined, rfl, rfl, rfl, rfl, rfl, hprev, hts, htxs, hpow,
        hinv (create_hash_inv H _ _ _)⟩

/-- Claim C6: whenever minePendingTransactions returns, the new state's chain
is the old chain with exactly one new block appended (previously committed
blocks unchanged), the pending pool is empty, and the appended block links to
the previously latest block, carries the entire old pending pool followed by
the reward transaction (fromAddress null, toAddress the miner, amount the
mining reward), was mined at the chain's difficulty, and has a consistent
stored hash.  The conclusion is conditional on the call returning: the
proof-of-work loop is unbounded and is modelled with fuel. -/
theorem minePendingTransactions_spec (H : String → String) (fuel tNow bNow : Nat)
    (addr : String) (bc bc' : Blockchain)
    (h : Blockchain.minePendingTransactions H fuel tNow bNow addr bc = some bc') :
    ∃ latest mined,
      bc.chain.getLast? = some latest ∧
      bc'.chain = bc.chain ++ [mined] ∧
      bc'.pendingTransactions = [] ∧
      bc'.difficulty = bc.difficulty ∧
      bc'.miningReward = bc.miningReward ∧
      mined.previousHash = latest.hash ∧
      mined.timestamp = JsPrim.jnum bNow ∧
      mined.transactions =
        TxPayload.txs (bc.pendingTransactions ++ [rewardTxn addr bc.miningReward tNow]) ∧
      jsSubstring mined.hash bc.difficulty = zeroStr bc.difficulty ∧
      mined.hash = Block.calculateHash H mined :=
  minePending_characterization H fuel tNow bNow addr bc bc' h

def witChain0 : Blockchain := newBlockchain witH

def witChain1 : Blockchain :=
  (Blockchain.minePendingTransactions witH 1 3 4 "MINER" witChain0).getD witChain0

/-- Witness for minePendingTransactions_spec on a concrete fresh chain. -/
theorem minePendingTransactions_spec_instance :
    ∃ latest mined,
      witChain0.chain.getLast? = some latest ∧
      witChain1.chain = witChain0.chain ++ [mined] ∧
      witChain1.pendingTransactions = [] ∧
      witChain1.difficulty = witChain0.difficulty ∧
      witChain1.miningReward = witChain0.miningReward ∧
      mined.previousHash = latest.hash ∧
      mined.timestamp = JsPrim.jnum 4 ∧
      mined.transactions =
        TxPayload.txs (witChain0.pendingTransactions ++
          [rewardTxn "MINER" witChain0.miningReward 3]) ∧
      jsSubstring mined.hash witChain0.difficulty = zeroStr witChain0.difficulty ∧
      mined.hash = Block.calculateHash witH mined :=
  minePendingTransactions_spec witH 1 3 4 "MINER" witChain0 witChain1 (by decide)

/-! ## Claim C5 -/

/-- The net effect of one transaction on the balance of an address: credit
for the recipient, debit for the sender. -/
def txNet (a : String) (t : Transaction) : Int :=
  (if t.toAddress = some a then t.amount else 0) -
  (if t.fromAddress = some a then t.amount else 0)

/-- The spec-side statement of the balance: the sum, starting from zero, over
every transaction of every block of the chain in order, of -amount when sent
from the address and +amount when sent to it.  The genesis payload holds no
transactions. -/
def specBalance (bc : Blockchain) (a : String) : Int :=
  (bc.chain.map fun b =>
    match b.transactions with
    | TxPayload.str _ => 0
    | TxPayload.txs l => (l.map (txNet a)).sum).sum

theorem balance_foldl_inner (a : String) :
    ∀ (l : List Transaction) (acc : Int),
      l.foldl
        (fun bal2 t =>
          let bal3 := if t.fromAddress = some a then bal2 - t.amount else bal2
          if t.toAddress = some a then bal3 + t.amount else bal3)
        acc = acc + (l.map (txNet a)).sum := by
  intro l
  induction l with
  | nil => intro acc; simp
  | cons t ts ih =>
    intro acc
    rw [List.foldl_cons, ih, List.map_cons, List.sum_cons]
    have hstep :
        (let bal3 := if t.fromAddress = some a then acc - t.amount else acc
         if t.toAddress = some a then bal3 + t.amount else bal3) = acc + txNet a t := by
      unfold txNet
      by_cases h1 : t.fromAddress = some a <;> by_cases h2 : t.toAddress = some a <;>
        (simp [h1, h2]; try omega)
    rw [hstep]
    omega

theorem balance_foldl_outer (a : String) :
    ∀ (chain : List Block) (acc : Int),
      chain.foldl
        (fun bal b =>
          match b.transactions with
          | TxPayload.str _ => bal
          | TxPayload.txs l =>
            l.foldl
              (fun bal2 t =>
                let bal3 := if t.fromAddress = some a then bal2 - t.amount else bal2
                if t.toAddress = some a then bal3 + t.amount else bal3)
              bal)
        acc =
      acc + (chain.map fun b =>
        match b.transactions with
        | TxPayload.str _ => 0
        | TxPayload.txs l => (l.map (txNet a)).sum).sum := by
  intro chain
  induction chain with
  | nil => intro acc; simp
  | cons b bs ih =>
    intro acc
    rw [List.foldl_cons, List.map_cons, List.sum_cons]
    cases hp : b.transactions with
    | str s =>
      simp only [hp, ih]
      omega
    | txs l =>
      simp only [hp]
      rw [ih, balance_foldl_inner]
      omega

theorem getBalance_eq_specBalance (bc : Blockchain) (a : String) :
    Blockchain.getBalanceOfAddress bc a = specBalance bc a := by
  unfold Blockchain.getBalanceOfAddress specBalance
  rw [balance_foldl_outer]
  omega

/-- Claim C5: getBalanceOfAddress replays every transaction of every block in
order, debiting sent and crediting received amounts from zero; and after
mining exactly one block on a fresh chain (reward only) for miner A, A's
balance is 100 and any other address reads 0. -/
theorem getBalanceOfAddress_spec :
    (∀ (bc : Blockchain) (a : String),
      Blockchain.getBalanceOfAddress bc a = specBalance bc a) ∧
    (∀ (H : String → String) (fuel tNow bNow : Nat) (A B : String) (bc' : Blockchain),
      B ≠ A →
      Blockchain.minePendingTransactions H fuel tNow bNow A (newBlockchain H) = some bc' →
      Blockchain.getBalanceOfAddress bc' A = 100 ∧
      Blockchain.getBalanceOfAddress bc' B = 0) := by
  constructor
  · exact getBalance_eq_specBalance
  · intro H fuel tNow bNow A B bc' hBA h
    obtain ⟨latest, mined, _, hchain, _, _, _, _, _, htxs, _, _⟩ :=
      minePending_characterization H fuel tNow bNow A (newBlockchain H) bc' h
    have hA : A ≠ B := fun hab => hBA hab.symm
    constructor
    · rw [getBalance_eq_specBalance]
      unfold specBalance
      rw [hchain]
      simp only [newBlockchain, List.cons_append, List.nil_append, List.map_cons,
        List.map_nil, List.sum_cons, List.sum_nil, htxs]
      simp [Blockchain.createGenesisBlock, Block.create, txNet, rewardTxn]
    · rw [getBalance_eq_specBalance]
      unfold specBalance
      rw [hchain]
      simp only [newBlockchain, List.cons_append, List.nil_append, List.map_cons,
        List.map_nil, List.sum_cons, List.sum_nil, htxs]
      simp [Blockchain.createGenesisBlock, Block.create, txNet, rewardTxn, hA]

/-! ## Claim C4 -/

theorem optFalsy_false_iff (o : Option String) :
    optFalsy o = false ↔ ∃ a, o = some a ∧ a ≠ "" := by
  cases o with
  | none => simp [optFalsy]
  | some s => simp [optFalsy]

theorem addTransaction_ok_inv (H : String → String) (V : String → String → String → Bool)
    (bc : Blockchain) (t : Transaction) (bc' : Blockchain)
    (h : Blockchain.addTransaction H V bc t = Except.ok bc') :
    (∃ a, t.fromAddress = some a ∧ a ≠ "") ∧
    bc' = { bc with pendingTransactions := bc.pendingTransactions ++ [t] } := by
  by_cases hf : (optFalsy t.fromAddress || optFalsy t.toAddress) = true
  · simp only [Blockchain.addTransaction, hf, if_true] at h
    exact absurd h (by simp)
  · have hff : (optFalsy t.fromAddress || optFalsy t.toAddress) = false := by
      revert hf
      cases optFalsy t.fromAddress || optFalsy t.toAddress <;> simp
    simp only [Blockchain.addTransaction] at h
    rw [if_neg (by simp [hff])] at h
    have hfrom : ∃ a, t.fromAddress = some a ∧ a ≠ "" := by
      rw [← optFalsy_false_iff]
      exact (Bool.or_eq_false_iff.mp hff).1
    cases hv : Transaction.isValid H V t with
    | error e => rw [hv] at h; exact absurd h (by simp)
    | ok b =>
      rw [hv] at h
      cases b with
      | false => exact absurd h (by simp)
      | true =>
        by_cases ha : t.amount ≤ 0
        · rw [if_pos ha] at h; exact absurd h (by simp)
        · rw [if_neg ha] at h
          by_cases hb : Blockchain.getBalanceOfAddress bc (t.fromAddress.getD "") < t.amount
          · rw [if_pos hb] at h; exact absurd h (by simp)
          · rw [if_neg hb] at h
            exact ⟨hfrom, (Except.ok.inj h).symm⟩

/-- Claim C4: addTransaction runs its four checks in source order, each
short-circuiting with its own distinct error (a throw from isValid, such as
the missing-signature error, propagates from the second check); the state is
returned unchanged on every failure, and on success the only change is that
the transaction is appended to the pending pool. -/
theorem addTransaction_pipeline_spec (H : String → String)
    (V : String → String → String → Bool) (bc : Blockchain) (t : Transaction) :
    ((optFalsy t.fromAddress || optFalsy t.toAddress) = true →
      Blockchain.addTransaction H V bc t =
        Except.error "Transaction must include from and to address") ∧
    ((optFalsy t.fromAddress || optFalsy t.toAddress) = false →
      (∀ e, Transaction.isValid H V t = Except.error e →
        Blockchain.addTransaction H V bc t = Except.error e) ∧
      (Transaction.isValid H V t = Except.ok false →
        Blockchain.addTransaction H V bc t =
          Except.error "Cannot add invalid transaction to chain") ∧
      (Transaction.isValid H V t = Except.ok true → t.amount ≤ 0 →
        Blockchain.addTransaction H V bc t =
          Except.error "Transaction amount should be higher than 0") ∧
      (∀ a, t.fromAddress = some a → Transaction.isValid H V t = Except.ok true →
        0 < t.amount → Blockchain.getBalanceOfAddress bc a < t.amount →
        Blockchain.addTransaction H V bc t = Except.error "Not enough balance") ∧
      (∀ a, t.fromAddress = some a → Transaction.isValid H V t = Except.ok true →
        0 < t.amount → t.amount ≤ Blockchain.getBalanceOfAddress bc a →
        Blockchain.addTransaction H V bc t =
          Except.ok { bc with pendingTransactions := bc.pendingTransactions ++ [t] })) ∧
    (∀ bc', Blockchain.addTransaction H V bc t = Except.ok bc' →
      bc' = { bc with pendingTransactions := bc.pendingTransactions ++ [t] }) := by
  refine ⟨?_, ?_, ?_⟩
  · intro hf
    simp only [Blockchain.addTransaction, hf, if_true]
  · intro hf
    have hcond : ¬((optFalsy t.fromAddress || optFalsy t.toAddress) = true) := by simp [hf]
    refine ⟨?_, ?_, ?_, ?_, ?_⟩
    · intro e hv
      simp only [Blockchain.addTransaction, if_neg hcond, hv]
    · intro hv
      simp only [Blockchain.addTransaction, if_neg hcond, hv]
    · intro hv ha
      simp only [Blockchain.addTransaction, if_neg hcond, hv, if_pos ha]
    · intro a hfa hv ha hb
      have hd : t.fromAddress.getD "" = a := by rw [hfa]; rfl
      simp only [Blockchain.addTransaction, if_neg hcond, hv, if_neg (by omega : ¬t.amount ≤ 0),
        hd, if_pos hb]
    · intro a hfa hv ha hb
      have hd : t.fromAddress.getD "" = a := by rw [hfa]; rfl
      simp only [Blockchain.addTransaction, if_neg hcond, hv, if_neg (by omega : ¬t.amount ≤ 0),
        hd, if_neg (by omega : ¬Blockchain.getBalanceOfAddress bc a < t.amount)]
  · intro bc' h
    exact (addTransaction_ok_inv H V bc t bc' h).2

/-! ## Claim C7 -/

/-- Claim C7: isValid returns true at once when fromAddress is absent (reward
semantics); with a present fromAddress it raises the missing-signature error
when the signature is absent or empty, and otherwise returns the boolean the
verifier gives for the stored signature against calculateHash() with
fromAddress as the public key. -/
theorem transaction_isValid_spec (H : String → String)
    (V : String → String → String → Bool) (t : Transaction) :
    (t.fromAddress = none → Transaction.isValid H V t = Except.ok true) ∧
    (t.fromAddress ≠ none → (t.signature = none ∨ t.signature = some "") →
      Transaction.isValid H V t = Except.error "No signature in this transaction") ∧
    (∀ pk s, t.fromAddress = some pk → t.signature = some s → s ≠ "" →
      Transaction.isValid H V t = Except.ok (V pk (Transaction.calculateHash H t) s)) := by
  refine ⟨?_, ?_, ?_⟩
  · intro hf
    simp [Transaction.isValid, hf]
  · intro hf hs
    cases hfa : t.fromAddress with
    | none => exact absurd hfa hf
    | some pk =>
      rcases hs with hs | hs
      · simp [Transaction.isValid, hfa, hs]
      · simp [Transaction.isValid, hfa, hs]
  · intro pk s hfa hs hne
    simp [Transaction.isValid, hfa, hs, hne]

/-! ## Claim C8 -/

/-- Claim C8: signTransaction raises the authorization error whenever the
signing identity's public key is not the transaction's fromAddress (no
signature is produced, the transaction is unchanged); when they match it
stores a signature over the digest calculateHash() returns. -/
theorem signTransaction_spec (H : String → String) (pub : String)
    (sgn : String → String) (t : Transaction) :
    (some pub ≠ t.fromAddress →
      Transaction.signTransaction H pub sgn t =
        Except.error "You cannot sign transactions for other wallets!") ∧
    (t.fromAddress = some pub →
      Transaction.signTransaction H pub sgn t =
        Except.ok { t with signature := some (sgn (Transaction.calculateHash H t)) }) := by
  constructor
  · intro hne
    simp [Transaction.signTransaction, hne]
  · intro heq
    simp [Transaction.signTransaction, heq]

/-! ## Claim C9 -/

/-- A toy verifier matching the toy signing convention used in the concrete
overdraft scenario: a signature is the public key, a separator, and the
signed digest. -/
def demoV : String → String → String → Bool := fun pk msg sig => sig == pk ++ "#" ++ msg

def demoBc1 : Blockchain :=
  (Blockchain.minePendingTransactions witH 1 10 11 "A" (newBlockchain witH)).getD
    (newBlockchain witH)

/-- A validly signed transaction A -> B of 60 (the constant digest of witH is
"00", so the toy signature is "A#00"). -/
def demoTx1 : Transaction :=
  { fromAddress := some "A", toAddress := some "B", amount := 60, timestamp := 12,
    signature := some "A#00" }

/-- A second validly signed transaction A -> C of 60. -/
def demoTx2 : Transaction :=
  { fromAddress := some "A", toAddress := some "C", amount := 60, timestamp := 13,
    signature := some "A#00" }

def demoBc2 : Blockchain :=
  (Blockchain.addTransaction witH demoV demoBc1 demoTx1).toOption.getD demoBc1

def demoBc3 : Blockchain :=
  (Blockchain.addTransaction witH demoV demoBc2 demoTx2).toOption.getD demoBc2

/-- Claim C9: in a reachable state where A's mined balance is 100, two
validly signed transactions of 60 each (each within the balance, together
exceeding it) are both accepted into the same pending batch, because the
balance check reads only the mined chain and ignores pending debits. -/
theorem pending_pool_overdraft_possible :
    Blockchain.minePendingTransactions witH 1 10 11 "A" (newBlockchain witH) = some demoBc1 ∧
    Blockchain.getBalanceOfAddress demoBc1 "A" = 100 ∧
    Transaction.isValid witH demoV demoTx1 = Except.ok true ∧
    Transaction.isValid witH demoV demoTx2 = Except.ok true ∧
    demoTx1.amount ≤ Blockchain.getBalanceOfAddress demoBc1 "A" ∧
    demoTx2.amount ≤ Blockchain.getBalanceOfAddress demoBc1 "A" ∧
    Blockchain.getBalanceOfAddress demoBc1 "A" < demoTx1.amount + demoTx2.amount ∧
    Blockchain.addTransaction witH demoV demoBc1 demoTx1 = Except.ok demoBc2 ∧
    Blockchain.addTransaction witH demoV demoBc2 demoTx2 = Except.ok demoBc3 ∧
    demoBc3.pendingTransactions = [demoTx1, demoTx2] := by
  refine ⟨by decide, by decide, by decide, by decide, by decide, by decide, by decide,
    by decide, by decide, by decide⟩

/-! ## Claim C10 -/

/-- A block whose transaction sequence ends with exactly one reward
transaction of amount 100 (fromAddress null, toAddress some miner address),
the only transaction in the block with a null fromAddress. -/
def lastIsUniqueReward (b : Block) : Prop :=
  ∃ tl addr ts, b.transactions = TxPayload.txs (tl ++ [rewardTxn addr 100 ts]) ∧
    ∀ t ∈ tl, t.fromAddress ≠ none

/-- Blockchain states reachable through the public mutating API: the
constructor, addTransaction, and minePendingTransactions (the query
operations do not mutate). -/
inductive Reachable (H : String → String) (V : String → String → String → Bool) :
    Blockchain → Prop where
  | init : Reachable H V (newBlockchain H)
  | add (bc bc' : Blockchain) (t : Transaction) :
      Reachable H V bc → Blockchain.addTransaction H V bc t = Except.ok bc' →
      Reachable H V bc'
  | mine (bc bc' : Blockchain) (fuel tNow bNow : Nat) (addr : String) :
      Reachable H V bc →
      Blockchain.minePendingTransactions H fuel tNow bNow addr bc = some bc' →
      Reachable H V bc'

theorem reachable_invariant_aux (H : String → String)
    (V : String → String → String → Bool) :
    ∀ bc, Reachable H V bc →
      bc.miningReward = 100 ∧
      (∀ t ∈ bc.pendingTransactions, t.fromAddress ≠ none) ∧
      (∀ b ∈ bc.chain.drop 1, lastIsUniqueReward b) := by
  intro bc h
  induction h with
  | init =>
    refine ⟨rfl, ?_, ?_⟩
    · intro t ht
      simp [newBlockchain] at ht
    · intro b hb
      simp [newBlockchain] at hb
  | add bc0 bc' t hr hok ih =>
    obtain ⟨⟨a, hfa, _⟩, hbc'⟩ := addTransaction_ok_inv H V bc0 t bc' hok
    subst hbc'
    refine ⟨ih.1, ?_, ih.2.2⟩
    intro t' ht'
    rcases List.mem_append.mp ht' with h1 | h2
    · exact ih.2.1 t' h1
    · rw [List.mem_singleton] at h2
      subst h2
      rw [hfa]
      simp
  | mine bc0 bc' fuel tNow bNow addr hr hmine ih =>
    obtain ⟨latest, mined, hlast, hchain, hpend, _, hmr, _, _, htxs, _, _⟩ :=
      minePending_characterization H fuel tNow bNow addr bc0 bc' hmine
    refine ⟨by rw [hmr, ih.1], ?_, ?_⟩
    · rw [hpend]
      intro t ht
      simp at ht
    · rw [hchain]
      have hlen : 1 ≤ bc0.chain.length := by
        cases hcc : bc0.chain with
        | nil => rw [hcc] at hlast; simp at hlast
        | cons x xs => simp
      rw [List.drop_append_of_le_length hlen]
      intro b hb
      rcases List.mem_append.mp hb with h1 | h2
      · exact ih.2.2 b h1
      · rw [List.mem_singleton] at h2
        subst h2
        exact ⟨bc0.pendingTransactions, addr, tNow, by rw [htxs, ih.1], ih.2.1⟩

/-- Claim C10: in every state reachable through the public API, every
non-genesis block's transaction sequence ends with exactly one reward
transaction (fromAddress null, toAddress the miner address of the mining call
that created it, amount the mining reward 100), and that reward is the only
null-sender transaction in the block, because addTransaction rejects every
transaction lacking a fromAddress. -/
theorem reachable_reward_invariant (H : String → String)
    (V : String → String → String → Bool) (bc : Blockchain) (h : Reachable H V bc) :
    bc.miningReward = 100 ∧ ∀ b ∈ bc.chain.drop 1, lastIsUniqueReward b :=
  ⟨(reachable_invariant_aux H V bc h).1, (reachable_invariant_aux H V bc h).2.2⟩

/-- Witness for reachable_reward_invariant at a concretely mined state. -/
theorem reachable_reward_invariant_instance :
    demoBc1.miningReward = 100 ∧ ∀ b ∈ demoBc1.chain.drop 1, lastIsUniqueReward b :=
  reachable_reward_invariant witH demoV demoBc1
    (Reachable.mine (newBlockchain witH) demoBc1 1 10 11 "A" Reachable.init (by decide))

/-! ## Claim C2: mutation of a committed amount -/

/-- Replace the element at one index of a list, leaving everything else. -/
def modifyAt {α : Type} : List α → Nat → (α → α) → List α
  | [], _, _ => []
  | x :: xs, 0, f => f x :: xs
  | x :: xs, n + 1, f => x :: modifyAt xs n f

/-- The direct JavaScript mutation tx.amount = a on a transaction object. -/
def Transaction.setAmount (a : Int) (t : Transaction) : Transaction := { t with amount := a }

/-- The direct mutation block.transactions[k].amount = a on a block, without
recomputing the block's hash. -/
def Block.mutateTxAmount (k : Nat) (a : Int) (b : Block) : Block :=
  { b with transactions :=
      match b.transactions with
      | TxPayload.str s => TxPayload.str s
      | TxPayload.txs l => TxPayload.txs (modifyAt l k (Transaction.setAmount a)) }

/-- The direct mutation chain[i].transactions[k].amount = a on a blockchain. -/
def Blockchain.mutateAmount (bc : Blockchain) (i k : Nat) (a : Int) : Blockchain :=
  { bc with chain := modifyAt bc.chain i (Block.mutateTxAmount k a) }

theorem modifyAt_decomp {α : Type} (f : α → α) :
    ∀ (l : List α) (k : Nat) (x : α), l[k]? = some x →
      ∃ A B, l = A ++ x :: B ∧ modifyAt l k f = A ++ f x :: B := by
  intro l
  induction l with
  | nil =>
    intro k x h
    simp at h
  | cons y ys ih =>
    intro k x h
    cases k with
    | zero =>
      rw [List.getElem?_cons_zero] at h
      cases h
      exact ⟨[], ys, rfl, rfl⟩
    | succ k =>
      rw [List.getElem?_cons_succ] at h
      obtain ⟨A, B, h1, h2⟩ := ih k x h
      refine ⟨y :: A, B, by rw [List.cons_append, ← h1], ?_⟩
      show y :: modifyAt ys k f = (y :: A) ++ f x :: B
      rw [List.cons_append, h2]

theorem joinComma_cons_ne_nil (s : String) (l : List String) (h : l ≠ []) :
    joinComma (s :: l) = s ++ "," ++ joinComma l := by
  cases l with
  | nil => exact absurd rfl h
  | cons x xs => rfl

theorem joinComma_ne :
    ∀ (A : List String) (x y : String) (B : List String), x ≠ y →
      joinComma (A ++ x :: B) ≠ joinComma (A ++ y :: B) := by
  intro A
  induction A with
  | nil =>
    intro x y B hxy
    cases B with
    | nil => simpa [joinComma] using hxy
    | cons b bs =>
      intro he
      rw [List.nil_append, List.nil_append,
        joinComma_cons_ne_nil x (b :: bs) (by simp),
        joinComma_cons_ne_nil y (b :: bs) (by simp)] at he
      exact hxy (str_right_cancel (str_right_cancel he))
  | cons a A ih =>
    intro x y B hxy he
    rw [List.cons_append, List.cons_append,
      joinComma_cons_ne_nil a (A ++ x :: B) (by simp),
      joinComma_cons_ne_nil a (A ++ y :: B) (by simp)] at he
    exact ih x y B hxy (str_left_cancel he)

theorem stringifyTx_setAmount_ne (t : Transaction) (a : Int) (h : a ≠ t.amount) :
    stringifyTx (Transaction.setAmount a t) ≠ stringifyTx t := by
  intro he
  apply h
  apply intDec_injective
  exact str_left_cancel (str_right_cancel (str_right_cancel (str_right_cancel
    (str_right_cancel he))))

theorem mutateTxAmount_txs (k : Nat) (a : Int) (b : Block) (l : List Transaction)
    (hl : b.transactions = TxPayload.txs l) :
    (Block.mutateTxAmount k a b).transactions =
      TxPayload.txs (modifyAt l k (Transaction.setAmount a)) := by
  simp [Block.mutateTxAmount, hl]

theorem calcHash_setAmount_ne (H : String → String) (hinj : Function.Injective H)
    (cur : Block) (l : List Transaction) (hl : cur.transactions = TxPayload.txs l)
    (k : Nat) (t : Transaction) (ht : l[k]? = some t) (a : Int) (ha : a ≠ t.amount) :
    Block.calculateHash H (Block.mutateTxAmount k a cur) ≠ Block.calculateHash H cur := by
  intro he
  obtain ⟨A, B, hABl, hABm⟩ := modifyAt_decomp (Transaction.setAmount a) l k t ht
  have hinput := hinj he
  have hpay : stringifyPayload (Block.mutateTxAmount k a cur).transactions =
      stringifyPayload cur.transactions :=
    str_left_cancel (str_right_cancel hinput)
  rw [mutateTxAmount_txs k a cur l hl, hl, hABm, hABl] at hpay
  simp only [stringifyPayload, List.map_append, List.map_cons] at hpay
  have hjoin := str_left_cancel (str_right_cancel hpay)
  exact joinComma_ne (A.map stringifyTx) _ _ (B.map stringifyTx)
    (stringifyTx_setAmount_ne t a ha) hjoin

theorem allValid_ok_true_iff (H : String → String)
    (V : String → String → String → Bool) :
    ∀ l, allValid H V l = Except.ok true ↔
      ∀ t ∈ l, Transaction.isValid H V t = Except.ok true := by
  intro l
  induction l with
  | nil => simp [allValid]
  | cons t ts ih =>
    constructor
    · intro h t' ht'
      unfold allValid at h
      cases hv : Transaction.isValid H V t with
      | error e =>
        rw [hv] at h
        exact absurd h (by simp)
      | ok b =>
        rw [hv] at h
        cases b with
        | false => exact absurd h (by simp)
        | true =>
          rcases List.mem_cons.mp ht' with h1 | h1
          · rw [h1]
            exact hv
          · exact (ih.mp h) t' h1
    · intro h
      unfold allValid
      rw [h t (by simp)]
      exact ih.mpr fun t' ht' => h t' (by simp [ht'])

theorem allValid_append (H : String → String) (V : String → String → String → Bool)
    (A : List Transaction)
    (hA : ∀ t ∈ A, Transaction.isValid H V t = Except.ok true) (L : List Transaction) :
    allValid H V (A ++ L) = allValid H V L := by
  induction A with
  | nil => rfl
  | cons t ts ih =>
    have h0 : allValid H V ((t :: ts) ++ L) = allValid H V (ts ++ L) := by
      show allValid H V (t :: (ts ++ L)) = allValid H V (ts ++ L)
      simp only [allValid, hA t (by simp)]
    rw [h0]
    exact ih fun t' ht' => hA t' (by simp [ht'])

theorem isValid_setAmount_ok (H : String → String)
    (V : String → String → String → Bool) (t : Transaction) (a : Int)
    (h : Transaction.isValid H V t = Except.ok true) :
    ∃ r : Bool, Transaction.isValid H V (Transaction.setAmount a t) = Except.ok r := by
  cases hf : t.fromAddress with
  | none => exact ⟨true, by simp [Transaction.isValid, Transaction.setAmount, hf]⟩
  | some pk =>
    cases hs : t.signature with
    | none => simp [Transaction.isValid, hf, hs] at h
    | some s =>
      by_cases he : s = ""
      · simp [Transaction.isValid, hf, hs, he] at h
      · refine ⟨V pk (Transaction.calculateHash H (Transaction.setAmount a t)) s, ?_⟩
        simp [Transaction.isValid, Transaction.setAmount, hf, hs, he]

theorem validFrom_mut (H : String → String) (hinj : Function.Injective H)
    (V : String → String → String → Bool) :
    ∀ (rest : List Block) (prev : Block) (j : Nat) (b : Block) (l : List Transaction)
      (k : Nat) (t : Transaction) (a : Int),
      blocksOk H V prev rest → rest[j]? = some b → b.transactions = TxPayload.txs l →
      l[k]? = some t → a ≠ t.amount →
      validFrom H V prev (modifyAt rest j (Block.mutateTxAmount k a)) = Except.ok false := by
  intro rest
  induction rest with
  | nil =>
    intro prev j b l k t a _ hj
    simp at hj
  | cons cur rest ih =>
    intro prev j b l k t a hok hj hl hk ha
    cases j with
    | succ j =>
      rw [List.getElem?_cons_succ] at hj
      obtain ⟨hc1, hc2, hc3⟩ := hok.1
      show validFrom H V prev (cur :: modifyAt rest j (Block.mutateTxAmount k a)) =
        Except.ok false
      simp only [validFrom, if_neg (not_not.mpr hc1), hc2, if_neg (not_not.mpr hc3)]
      exact ih cur j b l k t a hok.2 hj hl hk ha
    | zero =>
      rw [List.getElem?_cons_zero] at hj
      cases hj
      obtain ⟨hc1, hc2, hc3⟩ := hok.1
      have hlink : (Block.mutateTxAmount k a cur).previousHash = prev.hash := hc1
      have hall : ∀ t' ∈ l, Transaction.isValid H V t' = Except.ok true := by
        have hav : allValid H V l = Except.ok true := by
          have h2 := hc2
          simp only [Block.hasValidTransactions, hl] at h2
          exact h2
        exact (allValid_ok_true_iff H V l).mp hav
      obtain ⟨A, B, hABl, hABm⟩ := modifyAt_decomp (Transaction.setAmount a) l k t hk
      obtain ⟨r, hr⟩ := isValid_setAmount_ok H V t a (hall t (by rw [hABl]; simp))
      have hAok : ∀ t' ∈ A, Transaction.isValid H V t' = Except.ok true :=
        fun t' ht' => hall t' (by rw [hABl]; simp [ht'])
      have hhv : Block.hasValidTransactions H V (Block.mutateTxAmount k a cur) =
          allValid H V (Transaction.setAmount a t :: B) := by
        have hm := mutateTxAmount_txs k a cur l hl
        simp only [Block.hasValidTransactions, hm, hABm]
        exact allValid_append H V A hAok _
      cases r with
      | false =>
        have hfin : Block.hasValidTransactions H V (Block.mutateTxAmount k a cur) =
            Except.ok false := by
          rw [hhv]
          unfold allValid
          rw [hr]
        simp only [validFrom, if_neg (not_not.mpr hlink), hfin]
      | true =>
        have hBok : ∀ t' ∈ B, Transaction.isValid H V t' = Except.ok true :=
          fun t' ht' => hall t' (by rw [hABl]; simp [ht'])
        have hfin : Block.hasValidTransactions H V (Block.mutateTxAmount k a cur) =
            Except.ok true := by
          rw [hhv]
          unfold allValid
          rw [hr]
          show allValid H V B = Except.ok true
          exact (allValid_ok_true_iff H V B).mpr hBok
        have hhash : (Block.mutateTxAmount k a cur).hash ≠
            Block.calculateHash H (Block.mutateTxAmount k a cur) := by
          have h1 : (Block.mutateTxAmount k a cur).hash = cur.hash := rfl
          rw [h1, hc3]
          intro he
          exact calcHash_setAmount_ne H hinj cur l hl k t hk a ha he.symm
        simp only [validFrom, if_neg (not_not.mpr hlink), hfin, if_pos hhash]

/-- Claim C2: on any chain that isChainValid accepts, directly overwriting
the amount of any transaction stored in a block at index i >= 1 with a
different value, without recomputing that block's hash, makes isChainValid
return false.  The digest function is assumed collision-free (injective), the
property SHA-256 stands for. -/
theorem tamper_amount_invalidates_chain (H : String → String)
    (V : String → String → String → Bool) (hinj : Function.Injective H)
    (bc : Blockchain) (i k : Nat) (b : Block) (l : List Transaction) (t : Transaction)
    (a : Int)
    (hvalid : Blockchain.isChainValid H V bc = Except.ok true)
    (hi : 1 ≤ i) (hb : bc.chain[i]? = some b) (hl : b.transactions = TxPayload.txs l)
    (ht : l[k]? = some t) (ha : a ≠ t.amount) :
    Blockchain.isChainValid H V (Blockchain.mutateAmount bc i k a) = Except.ok false := by
  cases hc : bc.chain with
  | nil =>
    rw [hc] at hb
    simp at hb
  | cons g rest =>
    have hgen : stringifyBlock (Blockchain.createGenesisBlock H) = stringifyBlock g := by
      by_contra hne
      simp only [Blockchain.isChainValid, hc, if_pos hne] at hvalid
      exact absurd hvalid (by simp)
    have hblocks : blocksOk H V g rest := by
      have hv : validFrom H V g rest = Except.ok true := by
        simp only [Blockchain.isChainValid, hc, if_neg (not_not.mpr hgen)] at hvalid
        exact hvalid
      exact (validFrom_ok_iff H V rest g).mp hv
    obtain ⟨j, hj⟩ : ∃ j, i = j + 1 := ⟨i - 1, by omega⟩
    subst hj
    rw [hc, List.getElem?_cons_succ] at hb
    have hmut : (Blockchain.mutateAmount bc (j + 1) k a).chain =
        g :: modifyAt rest j (Block.mutateTxAmount k a) := by
      simp only [Blockchain.mutateAmount, hc]
      rfl
    have hred : Blockchain.isChainValid H V (Blockchain.mutateAmount bc (j + 1) k a) =
        validFrom H V g (modifyAt rest j (Block.mutateTxAmount k a)) := by
      simp only [Blockchain.isChainValid, hmut, if_neg (not_not.mpr hgen)]
    rw [hred]
    exact validFrom_mut H hinj V rest g j b l k t a hblocks hb hl ht ha

/-- The identity digest, trivially injective; used only for the concrete
tamper-detection instance. -/
def idH : String → String := fun s => s

def c2Block1 : Block :=
  Block.create idH (JsPrim.jnum 7) (TxPayload.txs [rewardTxn "M" 100 6])
    (Blockchain.createGenesisBlock idH).hash

def c2Chain : Blockchain :=
  { chain := [Blockchain.createGenesisBlock idH, c2Block1], difficulty := 2,
    pendingTransactions := [], miningReward := 100 }

/-- Witness for tamper_amount_invalidates_chain: a concrete valid chain with
one mined block whose committed reward amount is overwritten from 100 to 5. -/
theorem tamper_amount_invalidates_chain_instance :
    Blockchain.isChainValid idH demoV (Blockchain.mutateAmount c2Chain 1 0 5) =
      Except.ok false :=
  tamper_amount_invalidates_chain idH demoV (fun _ _ h => h) c2Chain 1 0 c2Block1
    [rewardTxn "M" 100 6] (rewardTxn "M" 100 6) 5 (by decide) (by omega) (by decide)
    (by decide) (by decide) (by decide)

end MyBlockchain
